/-
Verification of the LayerZero fee-switch tracker's core pipeline:
price resolution (forward/backward fill), daily-record aggregation,
sync orchestration effects, idempotent upsert-by-date, burn/forecast
arithmetic, and the Dune/CoinGecko data-shaping helpers.

Numeric modelling: JavaScript numbers are modelled as exact rationals
(ℚ) wherever the code performs no division; where division by zero or
NaN/Infinity behaviour matters (shadow-burn-calc, prediction, dune-api)
an explicit JS-number type `JSNum` with IEEE-style special values is
used (floating-point rounding itself is out of scope; negative zero is
not modelled). JS `Map`s are modelled as association lists in insertion
order, matching JS Map iteration/overwrite semantics. Date keys are
polymorphic over a linear order; the source's `YYYY-MM-DD` strings
instantiate it at `String` (lexicographic order, which on such strings
coincides with chronological order), and the sync routes' day-stepping
date arithmetic is modelled at day granularity by `ℤ`.
-/
import Mathlib

set_option linter.unusedSectionVars false

namespace FeeSwitchTracker

/-- Model of the JavaScript idiom `x || d` applied to a possibly-missing
number `x` (`undefined`/`null` → `none`): the default is taken when the
value is missing or is the falsy number `0`. -/
def jsOrQ (o : Option ℚ) (d : ℚ) : ℚ :=
  match o with
  | some x => if x = 0 then d else x
  | none => d

section MapModel

variable {α : Type} [LinearOrder α] [DecidableEq α]

/-- Model of `Map.set` for a JS `Map` represented as an association list
in insertion order: replace the value in place if the key is present,
otherwise append the new entry at the end. -/
def mapSet : List (α × ℚ) → α → ℚ → List (α × ℚ)
  | [], k, v => [(k, v)]
  | q :: l, k, v => if q.1 = k then (k, v) :: l else q :: mapSet l k v

/-- Model of `Map.get`: first entry with the given key (keys are unique
in maps built from `mapSet`, so first = only). -/
def mapGet : List (α × ℚ) → α → Option ℚ
  | [], _ => none
  | q :: l, k => if q.1 = k then some q.2 else mapGet l k

/-- Value of the last entry with the given key, if any. Used to reason
about sequences of `mapSet` writes (last write wins). -/
def lastVal : List (α × ℚ) → α → Option ℚ
  | [], _ => none
  | q :: l, k =>
    match lastVal l k with
    | some v => some v
    | none => if q.1 = k then some q.2 else none

end MapModel

section PriceResolverDefs

variable {α : Type} [LinearOrder α] [DecidableEq α]

/-- Embeds the first loop of `fillMissingPrices`
(`src/lib/coingecko-api.ts:110-116`): scan `dates` in order and return
the first date that has an entry in the sparse price map, together with
its price (`firstKnownDate`, `firstKnownPrice`), or `none`. -/
def findFirstKnown : List α → (α → Option ℚ) → Option (α × ℚ)
  | [], _ => none
  | d :: rest, pm =>
    match pm d with
    | some p => some (d, p)
    | none => findFirstKnown rest pm

/-- Embeds the `dates.forEach` loop of `fillMissingPrices`
(`src/lib/coingecko-api.ts:121-133`): `filled` is the accumulated output
map and `lk` the current `lastKnownPrice`. The JS guard
`firstKnownDate && date < firstKnownDate` is modelled as the inner
`if d < fd`; the extra truthiness test on the string `firstKnownDate` is
dropped because it only differs when `firstKnownDate` is the empty
string, and no string is lexicographically below the empty string, so
both conditions are false together. -/
def fillLoop (pm : α → Option ℚ) (fk : Option (α × ℚ)) :
    List α → List (α × ℚ) → ℚ → List (α × ℚ)
  | [], filled, _ => filled
  | d :: rest, filled, lk =>
    match pm d with
    | some p => fillLoop pm fk rest (mapSet filled d p) p
    | none =>
      match fk with
      | some (fd, fp) =>
        if d < fd then fillLoop pm fk rest (mapSet filled d fp) lk
        else fillLoop pm fk rest (mapSet filled d lk) lk
      | none => fillLoop pm fk rest (mapSet filled d lk) lk

/-- The initial `lastKnownPrice` of `fillMissingPrices`: the JS
`firstKnownPrice || fallbackPrice` (so a first known price of `0`,
being falsy, is replaced by the fallback). -/
def initialLastKnown (dates : List α) (priceMap : α → Option ℚ)
    (fallbackPrice : ℚ) : ℚ :=
  match findFirstKnown dates priceMap with
  | some (_, fp) => if fp = 0 then fallbackPrice else fp
  | none => fallbackPrice

/-- Embeds `fillMissingPrices` (`src/lib/coingecko-api.ts:99-136`):
compute `firstKnownPrice`/`firstKnownDate`, seed `lastKnownPrice`, and
run the `forEach` loop over every date. -/
def fillMissingPrices (dates : List α) (priceMap : α → Option ℚ)
    (fallbackPrice : ℚ) : List (α × ℚ) :=
  fillLoop priceMap (findFirstKnown dates priceMap) dates []
    (initialLastKnown dates priceMap fallbackPrice)

/-- Analysis helper (not from the source): the per-date values the
`forEach` loop writes, in iteration order, given the running
`lastKnownPrice`. -/
def fillValues (pm : α → Option ℚ) (fk : Option (α × ℚ)) :
    List α → ℚ → List (α × ℚ)
  | [], _ => []
  | d :: rest, lk =>
    match pm d with
    | some p => (d, p) :: fillValues pm fk rest p
    | none =>
      match fk with
      | some (fd, fp) =>
        if d < fd then (d, fp) :: fillValues pm fk rest lk
        else (d, lk) :: fillValues pm fk rest lk
      | none => (d, lk) :: fillValues pm fk rest lk

/-- Analysis helper (not from the source): the value of
`lastKnownPrice` after scanning the list `l`, starting from `lk`. -/
def lkAfter (pm : α → Option ℚ) : List α → ℚ → ℚ
  | [], lk => lk
  | d :: rest, lk =>
    lkAfter pm rest
      (match pm d with
       | some p => p
       | none => lk)

/-- Spec-side value assignment, modelled from the words of the claim
about the price resolver: a date with a sparse entry gets that entry;
a date before the earliest entry-bearing date of `dates` gets the first
known price (`findFirstKnown` on an ascending list returns exactly the
earliest entry-bearing date); a later entry-less date gets the most
recently adopted known price, i.e. `lastKnownPrice` accumulated over
the strictly earlier dates of the list; and if no date of `dates` has
an entry, every date gets the fallback. -/
def resolvePriceSpec (dates : List α) (pm : α → Option ℚ)
    (fallback : ℚ) (d : α) : ℚ :=
  match pm d with
  | some p => p
  | none =>
    match findFirstKnown dates pm with
    | none => fallback
    | some (fd, fp) =>
      if d < fd then fp
      else lkAfter pm (dates.filter (fun x => decide (x < d))) fallback

end PriceResolverDefs

section JSNumbers

/-- JavaScript number, idealized: finite values are exact rationals
(rounding is out of scope), plus the IEEE special values produced by
division by zero and by arithmetic on them. Negative zero is not
modelled; where JS distinguishes `+0` from `-0` (only the sign of an
infinite quotient) the `+0` behaviour is used. -/
inductive JSNum where
  | num (q : ℚ)
  | posInf
  | negInf
  | nan
deriving DecidableEq

namespace JSNum

/-- JS falsiness of a number: `0` and `NaN` are falsy. -/
def falsy : JSNum → Bool
  | num q => decide (q = 0)
  | nan => true
  | posInf => false
  | negInf => false

/-- JS `+` on numbers. -/
def add : JSNum → JSNum → JSNum
  | nan, _ => nan
  | _, nan => nan
  | posInf, negInf => nan
  | negInf, posInf => nan
  | posInf, _ => posInf
  | _, posInf => posInf
  | negInf, _ => negInf
  | _, negInf => negInf
  | num a, num b => num (a + b)

/-- JS `*` on numbers. -/
def mul : JSNum → JSNum → JSNum
  | nan, _ => nan
  | _, nan => nan
  | posInf, posInf => posInf
  | posInf, negInf => negInf
  | negInf, posInf => negInf
  | negInf, negInf => posInf
  | posInf, num b => if b = 0 then nan else if 0 < b then posInf else negInf
  | num a, posInf => if a = 0 then nan else if 0 < a then posInf else negInf
  | negInf, num b => if b = 0 then nan else if 0 < b then negInf else posInf
  | num a, negInf => if a = 0 then nan else if 0 < a then negInf else posInf
  | num a, num b => num (a * b)

/-- JS `/` on numbers (with `+0` for the zero divisor's sign, as noted
on `JSNum`). -/
def div : JSNum → JSNum → JSNum
  | nan, _ => nan
  | _, nan => nan
  | posInf, posInf => nan
  | posInf, negInf => nan
  | negInf, posInf => nan
  | negInf, negInf => nan
  | posInf, num b => if 0 ≤ b then posInf else negInf
  | negInf, num b => if 0 ≤ b then negInf else posInf
  | num _, posInf => num 0
  | num _, negInf => num 0
  | num a, num b =>
    if b = 0 then
      if a = 0 then nan else if 0 < a then posInf else negInf
    else num (a / b)

/-- JS `>` comparison on numbers (`NaN` compares false). -/
def gt : JSNum → JSNum → Bool
  | nan, _ => false
  | _, nan => false
  | posInf, posInf => false
  | posInf, _ => true
  | negInf, _ => false
  | num _, posInf => false
  | num _, negInf => true
  | num a, num b => decide (b < a)

end JSNum

/-- Embeds the `DailyMetrics` shape of `src/lib/mock-api.ts` as consumed
by the burn and prediction calculators. -/
structure DailyMetrics where
  date : String
  messageCount : JSNum
  avgGasPaid : JSNum
  medianGasPaid : JSNum
  totalFeeUSD : JSNum
  zroPrice : JSNum
deriving DecidableEq

/-- Embeds `calculateDailyBurn` (shadow-burn-calc): the plain quotient
`totalFeeUSD / zroPrice`, with no guard on a zero price. -/
def calculateDailyBurn (totalFeeUSD : JSNum) (zroPrice : JSNum) : JSNum :=
  JSNum.div totalFeeUSD zroPrice

/-- Embeds `calculateAverageDailyTotalFee` (`src/lib/prediction.ts`):
sum of `totalFeeUSD` via `reduce` with initial `0`, divided by the
window length (for an empty window this is `0 / 0 = NaN`, as in JS). -/
def calculateAverageDailyTotalFee (metrics : List DailyMetrics) : JSNum :=
  JSNum.div
    (metrics.foldl (fun s day => JSNum.add s day.totalFeeUSD) (JSNum.num 0))
    (JSNum.num (metrics.length : ℚ))

/-- Embeds `calculateAverageZROPrice` (`src/lib/prediction.ts`). -/
def calculateAverageZROPrice (metrics : List DailyMetrics) : JSNum :=
  JSNum.div
    (metrics.foldl (fun s day => JSNum.add s day.zroPrice) (JSNum.num 0))
    (JSNum.num (metrics.length : ℚ))

/-- Result shape of `predictFutureBurn`. -/
structure PredictBurnResult where
  dailyBurn : List JSNum
  totalBurn : JSNum
  totalUSDValue : JSNum
  avgZROPrice : JSNum
deriving DecidableEq

/-- Embeds `predictFutureBurn` (`src/lib/prediction.ts:78-109`): the
`for` loop pushes the same `calculateDailyBurn(avgDailyTotalFee,
predictivePrice)` value `daysAhead` times, so it is a `replicate`; the
JS `avgZROPrice || currentZROPrice` falls back whenever the average is
falsy (zero or the NaN of an empty window). -/
def predictFutureBurn (historicalMetrics : List DailyMetrics)
    (daysAhead : ℕ) (currentZROPrice : JSNum) : PredictBurnResult :=
  let avgDailyTotalFee := calculateAverageDailyTotalFee historicalMetrics
  let avgZROPrice := calculateAverageZROPrice historicalMetrics
  let predictivePrice :=
    if avgZROPrice.falsy then currentZROPrice else avgZROPrice
  let dailyBurn :=
    List.replicate daysAhead (calculateDailyBurn avgDailyTotalFee predictivePrice)
  { dailyBurn := dailyBurn
    totalBurn := dailyBurn.foldl JSNum.add (JSNum.num 0)
    totalUSDValue := JSNum.mul avgDailyTotalFee (JSNum.num (daysAhead : ℚ))
    avgZROPrice := predictivePrice }

/-- Embeds the `DuneDailyMetrics` record of `dune-api`. -/
structure DuneDailyMetrics where
  date : String
  messageCount : JSNum
  totalExecutorFees : JSNum
  totalDvnFees : JSNum
  totalProtocolFee : JSNum
  medianProtocolFee : JSNum
deriving DecidableEq

/-- Embeds `calculateDuneStats` (dune-api): average fee is
`totalProtocolFee / messageCount` guarded by `messageCount > 0`
(else `0`), and `medianFee` is the JS `medianProtocolFee || 0`. -/
def calculateDuneStats (metrics : DuneDailyMetrics) :
    JSNum × JSNum :=
  let avgFee :=
    if JSNum.gt metrics.messageCount (JSNum.num 0) then
      JSNum.div metrics.totalProtocolFee metrics.messageCount
    else JSNum.num 0
  let medianFee :=
    if metrics.medianProtocolFee.falsy then JSNum.num 0
    else metrics.medianProtocolFee
  (avgFee, medianFee)

end JSNumbers

section CoinGecko

/-- Embeds the price-map construction of `getHistoricalZROPrices`
(`src/lib/coingecko-api.ts:62-77`): fold over the `(timestamp, price)`
samples; `dayOf` abstracts the `toISOString().split('T')[0]` calendar
conversion from a millisecond timestamp to a `YYYY-MM-DD` string. The
overwrite guard is the source's
`!priceMap.has(dateStr) || timestamp > (priceMap.get(dateStr) || 0)` —
note it compares the incoming timestamp with the stored PRICE. -/
def buildPriceMap (dayOf : ℚ → String)
    (samples : List (ℚ × ℚ)) : List (String × ℚ) :=
  samples.foldl
    (fun m tp =>
      let dateStr := dayOf tp.1
      if mapGet m dateStr = none ∨ tp.1 > jsOrQ (mapGet m dateStr) 0 then
        mapSet m dateStr tp.2
      else m)
    []

end CoinGecko

section SyncRoutes

/-- Per-date analytics value produced by
`fetchLayerZeroDailyMetricsFromDune` and consumed by the sync routes.
The fields are finite JS numbers (modelled as ℚ; `calculateDuneStats`
never produces non-finite values from finite inputs). -/
structure LZDay where
  messageCount : ℚ
  avgFee : ℚ
  medianFee : ℚ
deriving DecidableEq

/-- One row of the `daily_metrics` table, as written by
`upsertDailyMetric` (`src/lib/db/queries.ts:37-67`). Dates are modelled
at day granularity by `ℤ` (the routes' `Date` stepping arithmetic);
the wall-clock `updated_at` column is metadata outside the model. -/
structure DailyMetricRow where
  date : ℤ
  messageCount : ℚ
  avgGasPaid : ℚ
  medianGasPaid : ℚ
  totalFeeUSD : ℚ
  zroPrice : ℚ
deriving DecidableEq

/-- One row of the `sync_status` table, as appended by
`insertSyncStatus` (`src/lib/db/queries.ts:128-147`); `errorMessage`
models the `status.errorMessage || null` column value. -/
structure SyncStatusEntry where
  lastSyncDate : ℤ
  status : String
  messagesSynced : ℕ
  errorMessage : Option String
deriving DecidableEq

/-- Effects of one sync invocation: whether the HTTP response reported
success, whether the "already up to date" short-circuit fired, the
daily-metric rows upserted (in order), and the sync-status rows
appended. -/
structure SyncRunResult where
  ok : Bool
  skipped : Bool
  upserts : List DailyMetricRow
  statusEntries : List SyncStatusEntry
deriving DecidableEq

/-- Dense enumeration of the calendar dates in `[fromD, toD]`
inclusive, modelling the routes' `while (currentDate <= toDate)`
day-stepping loop at day granularity. -/
def enumRange (fromD toD : ℤ) : List ℤ :=
  (List.range (toD + 1 - fromD).toNat).map (fun i : ℕ => fromD + (i : ℤ))

/-- Embeds the per-date record construction and upsert loop shared by
the cron route (`src/app/api/cron/daily-sync/route.ts:84-99`) and the
admin sync route: `messageCount`, `avgGasPaid`, `medianGasPaid` are the
JS `lzData?.field || 0`, `totalFeeUSD` is the product
`(lzData?.messageCount || 0) * (lzData?.avgFee || 0)`, and `zroPrice`
is `filledPrices.get(date) || currentPrice`. -/
def syncRecords (dates : List ℤ) (lz : ℤ → Option LZDay)
    (hist : ℤ → Option ℚ) (currentPrice : ℚ) : List DailyMetricRow :=
  let filledPrices := fillMissingPrices dates hist currentPrice
  dates.map (fun date =>
    { date := date
      messageCount := jsOrQ ((lz date).map LZDay.messageCount) 0
      avgGasPaid := jsOrQ ((lz date).map LZDay.avgFee) 0
      medianGasPaid := jsOrQ ((lz date).map LZDay.medianFee) 0
      totalFeeUSD :=
        jsOrQ ((lz date).map LZDay.messageCount) 0 *
          jsOrQ ((lz date).map LZDay.avgFee) 0
      zroPrice := jsOrQ (mapGet filledPrices date) currentPrice })

/-- The `errorMessage` column stored for a caught exception: the JS
`error instanceof Error ? error.message : 'Unknown error'` (the thrown
value is modelled as `Option String`, `some` being an `Error` with its
message) followed by `insertSyncStatus`'s `errorMessage || null`. -/
def storedErrorDetail (thrown : Option String) : Option String :=
  let msg :=
    match thrown with
    | some m => m
    | none => "Unknown error"
  if msg = "" then none else some msg

/-- Embeds the cron daily-sync route `GET`
(`src/app/api/cron/daily-sync/route.ts`): short-circuit with no effects
when `fromDate > toDate`; otherwise fetch analytics (a thrown fetch is
the `Except.error` case, caught by the route's `catch` which appends an
error status row and returns HTTP 500), build one record per date of
the range, upsert them all, and append one success status row dated
`toDate` with the record count. -/
def cronDailySync (fromD toD : ℤ)
    (fetched : Except (Option String) (ℤ → Option LZDay))
    (hist : ℤ → Option ℚ) (currentPrice : ℚ) : SyncRunResult :=
  if toD < fromD then
    { ok := true, skipped := true, upserts := [], statusEntries := [] }
  else
    match fetched with
    | Except.error e =>
      { ok := false, skipped := false, upserts := []
        statusEntries :=
          [{ lastSyncDate := toD, status := "error", messagesSynced := 0
             errorMessage := storedErrorDetail e }] }
    | Except.ok lz =>
      let recs := syncRecords (enumRange fromD toD) lz hist currentPrice
      { ok := true, skipped := false, upserts := recs
        statusEntries :=
          [{ lastSyncDate := toD, status := "success"
             messagesSynced := recs.length, errorMessage := none }] }

/-- Embeds the admin sync route `POST` (`src/unnamed/part_003`) on its
caller-supplied explicit `{startDate, endDate}` path: identical to the
cron body except that there is no `fromDate > toDate` short-circuit —
the date enumeration is simply empty for an inverted range, and the
success status row is still appended. -/
def adminSyncRange (fromD toD : ℤ)
    (fetched : Except (Option String) (ℤ → Option LZDay))
    (hist : ℤ → Option ℚ) (currentPrice : ℚ) : SyncRunResult :=
  match fetched with
  | Except.error e =>
    { ok := false, skipped := false, upserts := []
      statusEntries :=
        [{ lastSyncDate := toD, status := "error", messagesSynced := 0
           errorMessage := storedErrorDetail e }] }
  | Except.ok lz =>
    let recs := syncRecords (enumRange fromD toD) lz hist currentPrice
    { ok := true, skipped := false, upserts := recs
      statusEntries :=
        [{ lastSyncDate := toD, status := "success"
           messagesSynced := recs.length, errorMessage := none }] }

/-- Embeds `upsertDailyMetric`'s SQL
`INSERT ... ON CONFLICT(date) DO UPDATE` (`src/lib/db/queries.ts`):
replace the row with the matching date in place, or append a new row. -/
def dbUpsert : List DailyMetricRow → DailyMetricRow → List DailyMetricRow
  | [], r => [r]
  | q :: l, r => if q.date = r.date then r :: l else q :: dbUpsert l r

/-- Apply a sync run's upserts to the `daily_metrics` table, in order. -/
def applyUpserts (store : List DailyMetricRow)
    (recs : List DailyMetricRow) : List DailyMetricRow :=
  recs.foldl dbUpsert store

end SyncRoutes

section UpsertDefs

/-- First row with the given date, if any. -/
def rowGet : List DailyMetricRow → ℤ → Option DailyMetricRow
  | [], _ => none
  | q :: l, k => if q.date = k then some q else rowGet l k

/-- Last row with the given date among a write sequence, if any. -/
def lastRow : List DailyMetricRow → ℤ → Option DailyMetricRow
  | [], _ => none
  | q :: l, k =>
    match lastRow l k with
    | some r => some r
    | none => if q.date = k then some q else none


end UpsertDefs

section MapLemmas

variable {α : Type} [LinearOrder α] [DecidableEq α]

theorem mapGet_mapSet (m : List (α × ℚ)) (k : α) (v : ℚ) (k' : α) :
    mapGet (mapSet m k v) k' = if k = k' then some v else mapGet m k' := by
  induction m with
  | nil => simp [mapSet, mapGet]
  | cons q l ih =>
    by_cases hq : q.1 = k
    · rw [mapSet, if_pos hq]
      by_cases hk : k = k'
      · rw [mapGet, if_pos hk, if_pos hk]
      · have hq' : ¬ q.1 = k' := by rw [hq]; exact hk
        rw [mapGet, if_neg hk, if_neg hk, mapGet, if_neg hq']
    · rw [mapSet, if_neg hq]
      by_cases hq' : q.1 = k'
      · have hk : ¬ k = k' := fun h => hq (by rw [h]; exact hq')
        rw [mapGet, if_pos hq', if_neg hk, mapGet, if_pos hq']
      · rw [mapGet, if_neg hq', ih, mapGet, if_neg hq']

theorem mapGet_foldl_mapSet (l : List (α × ℚ)) :
    ∀ (m : List (α × ℚ)) (k : α),
      mapGet (List.foldl (fun acc pr => mapSet acc pr.1 pr.2) m l) k =
        match lastVal l k with
        | some v => some v
        | none => mapGet m k := by
  induction l with
  | nil => intro m k; simp [lastVal]
  | cons p l ih =>
    intro m k
    simp only [List.foldl_cons, ih, lastVal, mapGet_mapSet]
    cases lastVal l k with
    | some v => rfl
    | none =>
      by_cases hp : p.1 = k <;> simp [hp]

theorem lastVal_eq_none (l : List (α × ℚ)) (k : α)
    (h : k ∉ l.map Prod.fst) : lastVal l k = none := by
  induction l with
  | nil => rfl
  | cons q l ih =>
    simp only [List.map_cons, List.mem_cons] at h
    push_neg at h
    rw [lastVal, ih h.2, if_neg (fun hq => h.1 hq.symm)]

theorem lastVal_mem (l : List (α × ℚ)) (k : α) (v : ℚ)
    (h : lastVal l k = some v) : (k, v) ∈ l := by
  induction l with
  | nil => simp [lastVal] at h
  | cons q l ih =>
    rw [lastVal] at h
    cases hl : lastVal l k with
    | some w =>
      rw [hl] at h
      cases h
      exact List.mem_cons_of_mem _ (ih hl)
    | none =>
      rw [hl] at h
      by_cases hq : q.1 = k
      · rw [if_pos hq] at h
        cases h
        rw [← hq]
        simp
      · rw [if_neg hq] at h
        cases h

/-- If a key occurs among the keys of `l`, `lastVal` finds a value. -/
theorem lastVal_isSome (l : List (α × ℚ)) (k : α)
    (h : k ∈ l.map Prod.fst) : ∃ v, lastVal l k = some v := by
  induction l with
  | nil => simp at h
  | cons q l ih =>
    rw [lastVal]
    cases hl : lastVal l k with
    | some w => exact ⟨w, rfl⟩
    | none =>
      simp only [List.map_cons, List.mem_cons] at h
      cases h with
      | inl h1 => exact ⟨q.2, by rw [if_pos h1.symm]⟩
      | inr h2 =>
        obtain ⟨v, hv⟩ := ih h2
        rw [hv] at hl
        cases hl

/-- When a key is not yet present, `mapSet` appends. -/
theorem mapSet_not_mem (m : List (α × ℚ)) (k : α) (v : ℚ)
    (h : k ∉ m.map Prod.fst) : mapSet m k v = m ++ [(k, v)] := by
  induction m with
  | nil => rfl
  | cons q l ih =>
    simp only [List.map_cons, List.mem_cons] at h
    push_neg at h
    rw [mapSet, if_neg (fun hq => h.1 hq.symm), ih h.2]
    rfl

/-- Folding `mapSet` over entries with fresh, pairwise-distinct keys
appends them all. -/
theorem foldl_mapSet_nodup (l : List (α × ℚ)) :
    ∀ (m : List (α × ℚ)), (l.map Prod.fst).Nodup →
      (∀ k ∈ l.map Prod.fst, k ∉ m.map Prod.fst) →
      List.foldl (fun acc pr => mapSet acc pr.1 pr.2) m l = m ++ l := by
  induction l with
  | nil => intro m _ _; simp
  | cons p l ih =>
    intro m hnd hfresh
    simp only [List.map_cons, List.nodup_cons] at hnd
    have hp : p.1 ∉ m.map Prod.fst :=
      hfresh p.1 (by simp)
    rw [List.foldl_cons, mapSet_not_mem m p.1 p.2 hp]
    rw [ih (m ++ [p]) hnd.2]
    · simp
    · intro k hk
      simp only [List.map_append, List.mem_append]
      push_neg
      constructor
      · exact hfresh k (by simp [hk])
      · simp only [List.map_cons, List.map_nil, List.mem_singleton]
        intro hkp
        rw [hkp] at hk
        exact hnd.1 hk

end MapLemmas

section PriceResolverLemmas

variable {α : Type} [LinearOrder α] [DecidableEq α]

theorem fillLoop_eq_foldl (pm : α → Option ℚ) (fk : Option (α × ℚ)) :
    ∀ (ds : List α) (filled : List (α × ℚ)) (lk : ℚ),
      fillLoop pm fk ds filled lk =
        List.foldl (fun acc pr => mapSet acc pr.1 pr.2) filled
          (fillValues pm fk ds lk) := by
  intro ds
  induction ds with
  | nil => intro filled lk; rfl
  | cons d rest ih =>
    intro filled lk
    cases hpm : pm d with
    | some p => simp only [fillLoop, fillValues, hpm, ih, List.foldl_cons]
    | none =>
      cases fk with
      | some pr =>
        obtain ⟨fd, fp⟩ := pr
        by_cases hd : d < fd
        · simp only [fillLoop, fillValues, hpm, if_pos hd, ih, List.foldl_cons]
        · simp only [fillLoop, fillValues, hpm, if_neg hd, ih, List.foldl_cons]
      | none => simp only [fillLoop, fillValues, hpm, ih, List.foldl_cons]

theorem fillValues_keys (pm : α → Option ℚ) (fk : Option (α × ℚ)) :
    ∀ (ds : List α) (lk : ℚ),
      (fillValues pm fk ds lk).map Prod.fst = ds := by
  intro ds
  induction ds with
  | nil => intro lk; rfl
  | cons d rest ih =>
    intro lk
    cases hpm : pm d with
    | some p => simp [fillValues, hpm, ih]
    | none =>
      cases fk with
      | some pr =>
        obtain ⟨fd, fp⟩ := pr
        by_cases hd : d < fd
        · simp [fillValues, hpm, if_pos hd, ih]
        · simp [fillValues, hpm, if_neg hd, ih]
      | none => simp [fillValues, hpm, ih]

omit [LinearOrder α] in
theorem findFirstKnown_mem (ds : List α) (pm : α → Option ℚ)
    (fd : α) (fp : ℚ) (h : findFirstKnown ds pm = some (fd, fp)) :
    fd ∈ ds ∧ pm fd = some fp := by
  induction ds with
  | nil => cases h
  | cons d rest ih =>
    rw [findFirstKnown] at h
    cases hd : pm d with
    | some p =>
      rw [hd] at h
      cases h
      exact ⟨List.mem_cons_self _ _, hd⟩
    | none =>
      rw [hd] at h
      obtain ⟨h1, h2⟩ := ih h
      exact ⟨List.mem_cons_of_mem d h1, h2⟩

omit [LinearOrder α] in
theorem findFirstKnown_eq_none (ds : List α) (pm : α → Option ℚ)
    (h : findFirstKnown ds pm = none) : ∀ x ∈ ds, pm x = none := by
  induction ds with
  | nil => intro x hx; cases hx
  | cons d rest ih =>
    intro x hx
    rw [findFirstKnown] at h
    cases hd : pm d with
    | some p => rw [hd] at h; cases h
    | none =>
      rw [hd] at h
      cases hx with
      | head => exact hd
      | tail _ hmem => exact ih h x hmem

omit [LinearOrder α] in
theorem lkAfter_congr (pm : α → Option ℚ) :
    ∀ (l : List α) (a b : ℚ),
      (∃ x ∈ l, (pm x).isSome) → lkAfter pm l a = lkAfter pm l b := by
  intro l
  induction l with
  | nil => intro a b h; obtain ⟨x, hx, _⟩ := h; cases hx
  | cons d rest ih =>
    intro a b h
    rw [lkAfter, lkAfter]
    cases hd : pm d with
    | some p => rfl
    | none =>
      obtain ⟨x, hx, hsome⟩ := h
      cases hx with
      | head => rw [hd] at hsome; cases hsome
      | tail _ hmem => exact ih a b ⟨x, hmem, hsome⟩

theorem lastVal_fillValues_known (pm : α → Option ℚ)
    (fk : Option (α × ℚ)) (d : α) (p : ℚ) (hp : pm d = some p) :
    ∀ (ds : List α) (lk : ℚ), d ∈ ds →
      lastVal (fillValues pm fk ds lk) d = some p := by
  intro ds
  induction ds with
  | nil => intro lk h; cases h
  | cons d' rest ih =>
    intro lk hmem
    by_cases hr : d ∈ rest
    · cases hpm : pm d' with
      | some q =>
        simp only [fillValues, hpm, lastVal, ih q hr]
      | none =>
        cases fk with
        | some pr =>
          obtain ⟨fd, fp⟩ := pr
          by_cases hd : d' < fd
          · simp only [fillValues, hpm, if_pos hd, lastVal, ih lk hr]
          · simp only [fillValues, hpm, if_neg hd, lastVal, ih lk hr]
        | none => simp only [fillValues, hpm, lastVal, ih lk hr]
    · have hdd : d = d' := by
        cases hmem with
        | head => rfl
        | tail _ h => exact absurd h hr
      subst hdd
      have hnone := lastVal_eq_none (fillValues pm fk rest p) d
        (by rw [fillValues_keys]; exact hr)
      simp [fillValues, hp, lastVal, hnone]

theorem lastVal_fillValues_before (pm : α → Option ℚ)
    (fd : α) (fp : ℚ) (d : α) (hp : pm d = none) (hlt : d < fd) :
    ∀ (ds : List α) (lk : ℚ), d ∈ ds →
      lastVal (fillValues pm (some (fd, fp)) ds lk) d = some fp := by
  intro ds
  induction ds with
  | nil => intro lk h; cases h
  | cons d' rest ih =>
    intro lk hmem
    by_cases hr : d ∈ rest
    · cases hpm : pm d' with
      | some q => simp only [fillValues, hpm, lastVal, ih q hr]
      | none =>
        by_cases hd : d' < fd
        · simp only [fillValues, hpm, if_pos hd, lastVal, ih lk hr]
        · simp only [fillValues, hpm, if_neg hd, lastVal, ih lk hr]
    · have hdd : d = d' := by
        cases hmem with
        | head => rfl
        | tail _ h => exact absurd h hr
      subst hdd
      have hnone := lastVal_eq_none (fillValues pm (some (fd, fp)) rest lk) d
        (by rw [fillValues_keys]; exact hr)
      simp [fillValues, hp, if_pos hlt, lastVal, hnone]

theorem lastVal_fillValues_allNone (pm : α → Option ℚ) (d : α) :
    ∀ (ds : List α) (lk : ℚ), (∀ x ∈ ds, pm x = none) → d ∈ ds →
      lastVal (fillValues pm none ds lk) d = some lk := by
  intro ds
  induction ds with
  | nil => intro lk _ h; cases h
  | cons d' rest ih =>
    intro lk hall hmem
    have hpm : pm d' = none := hall d' (List.mem_cons_self _ _)
    have hall' : ∀ x ∈ rest, pm x = none :=
      fun x hx => hall x (List.mem_cons_of_mem _ hx)
    by_cases hr : d ∈ rest
    · simp only [fillValues, hpm, lastVal, ih lk hall' hr]
    · have hdd : d = d' := by
        cases hmem with
        | head => rfl
        | tail _ h => exact absurd h hr
      subst hdd
      have hnone := lastVal_eq_none (fillValues pm none rest lk) d
        (by rw [fillValues_keys]; exact hr)
      simp [fillValues, hpm, lastVal, hnone]

/-- Forward-fill invariant of the scan: for a date `d` with no sparse
entry, at or after the first known date, the value written by the last
occurrence of `d` is `lastKnownPrice` as accumulated over all strictly
earlier dates of the (ascending) list. -/
theorem lastVal_fillValues_forward (pm : α → Option ℚ)
    (fd : α) (fp : ℚ) (d : α) (hp : pm d = none) (hge : ¬ d < fd) :
    ∀ (ds : List α) (lk : ℚ), ds.Sorted (· ≤ ·) → d ∈ ds →
      lastVal (fillValues pm (some (fd, fp)) ds lk) d =
        some (lkAfter pm (ds.filter (fun x => decide (x < d))) lk) := by
  intro ds
  induction ds with
  | nil => intro lk _ h; cases h
  | cons d' rest ih =>
    intro lk hsort hmem
    rw [List.sorted_cons] at hsort
    by_cases hdd : d' = d
    · subst hdd
      have hnotlt : ¬ (d' < d') := lt_irrefl d'
      rw [List.filter_cons_of_neg (by simp)]
      by_cases hr : d' ∈ rest
      · simp only [fillValues, hp, if_neg hge, lastVal,
          ih lk hsort.2 hr]
      · have hfilter : rest.filter (fun x => decide (x < d')) = [] := by
          rw [List.filter_eq_nil_iff]
          intro x hx
          simp only [decide_eq_true_eq]
          exact not_lt_of_le (hsort.1 x hx)
        have hnone := lastVal_eq_none
          (fillValues pm (some (fd, fp)) rest lk) d'
          (by rw [fillValues_keys]; exact hr)
        simp [fillValues, hp, if_neg hge, lastVal, hnone, hfilter, lkAfter]
    · have hr : d ∈ rest := by
        cases hmem with
        | head => exact absurd rfl hdd
        | tail _ h => exact h
      have hlt : d' < d :=
        lt_of_le_of_ne (hsort.1 d hr) (fun h => hdd h)
      rw [List.filter_cons_of_pos (by simpa using hlt)]
      cases hpm : pm d' with
      | some q =>
        simp only [fillValues, hpm, lastVal, ih q hsort.2 hr, lkAfter]
      | none =>
        by_cases hd : d' < fd
        · simp only [fillValues, hpm, if_pos hd, lastVal,
            ih lk hsort.2 hr, lkAfter]
        · simp only [fillValues, hpm, if_neg hd, lastVal,
            ih lk hsort.2 hr, lkAfter]

/-- Refinement of the resolver by its spec: on an ascending date list,
`fillMissingPrices` assigns every input date exactly the value
described by the claim. -/
theorem fillMissingPrices_resolves (dates : List α) (pm : α → Option ℚ)
    (fb : ℚ) (hsort : dates.Sorted (· ≤ ·)) (d : α) (hd : d ∈ dates) :
    mapGet (fillMissingPrices dates pm fb) d =
      some (resolvePriceSpec dates pm fb d) := by
  rw [fillMissingPrices]
  cases hfk : findFirstKnown dates pm with
  | none =>
    simp only [initialLastKnown, hfk]
    rw [fillLoop_eq_foldl, mapGet_foldl_mapSet]
    have hall := findFirstKnown_eq_none dates pm hfk
    rw [lastVal_fillValues_allNone pm d dates fb hall hd]
    rw [resolvePriceSpec, hall d hd, hfk]
  | some pr =>
    obtain ⟨fd, fp⟩ := pr
    have hfd := findFirstKnown_mem dates pm fd fp hfk
    simp only [initialLastKnown, hfk]
    rw [fillLoop_eq_foldl, mapGet_foldl_mapSet]
    set lk0 : ℚ := if fp = 0 then fb else fp with hlk0
    cases hpd : pm d with
    | some p =>
      rw [lastVal_fillValues_known pm (some (fd, fp)) d p hpd dates lk0 hd]
      rw [resolvePriceSpec, hpd]
    | none =>
      by_cases hlt : d < fd
      · rw [lastVal_fillValues_before pm fd fp d hpd hlt dates lk0 hd]
        simp only [resolvePriceSpec, hpd, hfk, if_pos hlt]
      · rw [lastVal_fillValues_forward pm fd fp d hpd hlt dates lk0
          hsort hd]
        simp only [resolvePriceSpec, hpd, hfk, if_neg hlt]
        have hne : fd ≠ d := by
          intro h
          rw [h, hpd] at hfd
          exact Option.noConfusion hfd.2
        have hflt : fd < d := lt_of_le_of_ne (not_lt.mp hlt) hne
        have hmemf : fd ∈ dates.filter (fun x => decide (x < d)) := by
          rw [List.mem_filter]
          exact ⟨hfd.1, by simpa using hflt⟩
        have := lkAfter_congr pm (dates.filter (fun x => decide (x < d)))
          lk0 fb ⟨fd, hmemf, by rw [hfd.2]; rfl⟩
        rw [this]

/-- Every value written by the fill scan is positive, provided all
sparse prices, the first-known price and the running `lastKnownPrice`
are positive. -/
theorem fillValues_pos (pm : α → Option ℚ) (fk : Option (α × ℚ))
    (hpm : ∀ x q, pm x = some q → 0 < q)
    (hfk : ∀ fd fp, fk = some (fd, fp) → 0 < fp) :
    ∀ (ds : List α) (lk : ℚ), 0 < lk →
      ∀ pr ∈ fillValues pm fk ds lk, 0 < pr.2 := by
  intro ds
  induction ds with
  | nil => intro lk _ pr hpr; cases hpr
  | cons d rest ih =>
    intro lk hlk pr hpr
    cases hpd : pm d with
    | some p =>
      simp only [fillValues, hpd] at hpr
      cases hpr with
      | head => exact hpm d p hpd
      | tail _ h => exact ih p (hpm d p hpd) pr h
    | none =>
      cases fk with
      | some fpr =>
        obtain ⟨fd, fp⟩ := fpr
        have hfp : 0 < fp := hfk fd fp rfl
        simp only [fillValues, hpd] at hpr
        by_cases hd : d < fd
        · rw [if_pos hd] at hpr
          cases hpr with
          | head => exact hfp
          | tail _ h => exact ih lk hlk pr h
        · rw [if_neg hd] at hpr
          cases hpr with
          | head => exact hlk
          | tail _ h => exact ih lk hlk pr h
      | none =>
        simp only [fillValues, hpd] at hpr
        cases hpr with
        | head => exact hlk
        | tail _ h => exact ih lk hlk pr h

/-- Under pairwise-distinct dates, the resolver's output is literally
the list of scan values: one entry per input date, in order. -/
theorem fillMissingPrices_eq_fillValues (dates : List α)
    (pm : α → Option ℚ) (fb : ℚ) (hnd : dates.Nodup) :
    fillMissingPrices dates pm fb =
      fillValues pm (findFirstKnown dates pm) dates
        (initialLastKnown dates pm fb) := by
  rw [fillMissingPrices, fillLoop_eq_foldl]
  rw [foldl_mapSet_nodup _ _ (by rw [fillValues_keys]; exact hnd)
    (by intro k _ hk; simp at hk)]
  rw [List.nil_append]

/-- Positivity of every resolver output value, given positive sparse
prices and a positive fallback (the initial `lastKnownPrice` is then
positive whichever branch of the JS `||` produced it). -/
theorem fillValues_output_pos (dates : List α) (pm : α → Option ℚ)
    (fb : ℚ) (hpm : ∀ x q, pm x = some q → 0 < q) (hfb : 0 < fb) :
    ∀ pr ∈ fillValues pm (findFirstKnown dates pm) dates
        (initialLastKnown dates pm fb), 0 < pr.2 := by
  rw [initialLastKnown]
  cases hfk : findFirstKnown dates pm with
  | none =>
    exact fillValues_pos pm none hpm (fun fd fp h => by cases h) dates fb hfb
  | some pr0 =>
    obtain ⟨fd, fp⟩ := pr0
    have hfp : 0 < fp :=
      hpm fd fp (findFirstKnown_mem dates pm fd fp hfk).2
    refine fillValues_pos pm (some (fd, fp)) hpm ?_ dates _ ?_
    · intro fd' fp' h
      cases h
      exact hfp
    · show 0 < if fp = 0 then fb else fp
      by_cases h0 : fp = 0
      · rw [if_pos h0]; exact hfb
      · rw [if_neg h0]; exact hfp


end PriceResolverLemmas

section UpsertLemmas

theorem rowGet_dbUpsert (m : List DailyMetricRow) (r : DailyMetricRow)
    (k : ℤ) :
    rowGet (dbUpsert m r) k = if r.date = k then some r else rowGet m k := by
  induction m with
  | nil => simp [dbUpsert, rowGet]
  | cons q l ih =>
    by_cases hq : q.date = r.date
    · rw [dbUpsert, if_pos hq]
      by_cases hk : r.date = k
      · rw [rowGet, if_pos hk, if_pos hk]
      · have hq' : ¬ q.date = k := by rw [hq]; exact hk
        rw [rowGet, if_neg hk, if_neg hk, rowGet, if_neg hq']
    · rw [dbUpsert, if_neg hq]
      by_cases hq' : q.date = k
      · have hk : ¬ r.date = k := fun h => hq (by rw [hq', ← h])
        rw [rowGet, if_pos hq', if_neg hk, rowGet, if_pos hq']
      · rw [rowGet, if_neg hq', ih, rowGet, if_neg hq']

theorem rowGet_eq_none (m : List DailyMetricRow) (k : ℤ)
    (h : k ∉ m.map DailyMetricRow.date) : rowGet m k = none := by
  induction m with
  | nil => rfl
  | cons q l ih =>
    simp only [List.map_cons, List.mem_cons] at h
    push_neg at h
    rw [rowGet, if_neg (fun hq => h.1 hq.symm), ih h.2]

theorem dates_dbUpsert (m : List DailyMetricRow) (r : DailyMetricRow) :
    (dbUpsert m r).map DailyMetricRow.date =
      if r.date ∈ m.map DailyMetricRow.date then m.map DailyMetricRow.date
      else m.map DailyMetricRow.date ++ [r.date] := by
  induction m with
  | nil => simp [dbUpsert]
  | cons q l ih =>
    by_cases hq : q.date = r.date
    · rw [dbUpsert, if_pos hq]
      simp [hq]
    · rw [dbUpsert, if_neg hq]
      simp only [List.map_cons, List.mem_cons]
      have : ¬ r.date = q.date := fun h => hq h.symm
      by_cases hmem : r.date ∈ l.map DailyMetricRow.date
      · simp [this, hmem, ih]
      · simp [this, hmem, ih]

theorem dates_applyUpserts_of_subset (l : List DailyMetricRow) :
    ∀ (s : List DailyMetricRow),
      (∀ r ∈ l, r.date ∈ s.map DailyMetricRow.date) →
      (applyUpserts s l).map DailyMetricRow.date =
        s.map DailyMetricRow.date := by
  induction l with
  | nil => intro s _; rfl
  | cons r l ih =>
    intro s hsub
    have hr : r.date ∈ s.map DailyMetricRow.date :=
      hsub r (List.mem_cons_self _ _)
    have hd : (dbUpsert s r).map DailyMetricRow.date =
        s.map DailyMetricRow.date := by
      rw [dates_dbUpsert, if_pos hr]
    rw [applyUpserts, List.foldl_cons]
    have := ih (dbUpsert s r)
      (fun r' hr' => by rw [hd]; exact hsub r' (List.mem_cons_of_mem _ hr'))
    rw [applyUpserts] at this
    rw [this, hd]

theorem mem_dates_dbUpsert_of_mem (m : List DailyMetricRow)
    (r : DailyMetricRow) (k : ℤ) (h : k ∈ m.map DailyMetricRow.date) :
    k ∈ (dbUpsert m r).map DailyMetricRow.date := by
  rw [dates_dbUpsert]
  by_cases hmem : r.date ∈ m.map DailyMetricRow.date
  · rw [if_pos hmem]; exact h
  · rw [if_neg hmem]; exact List.mem_append_left _ h

theorem mem_dates_dbUpsert_self (m : List DailyMetricRow)
    (r : DailyMetricRow) :
    r.date ∈ (dbUpsert m r).map DailyMetricRow.date := by
  rw [dates_dbUpsert]
  by_cases hmem : r.date ∈ m.map DailyMetricRow.date
  · rw [if_pos hmem]; exact hmem
  · rw [if_neg hmem]; exact List.mem_append_right _ (by simp)

theorem mem_dates_applyUpserts_mono (l : List DailyMetricRow) :
    ∀ (s : List DailyMetricRow) (k : ℤ), k ∈ s.map DailyMetricRow.date →
      k ∈ (applyUpserts s l).map DailyMetricRow.date := by
  induction l with
  | nil => intro s k h; exact h
  | cons y l ih =>
    intro s k h
    rw [applyUpserts, List.foldl_cons]
    have := ih (dbUpsert s y) k (mem_dates_dbUpsert_of_mem s y k h)
    rw [applyUpserts] at this
    exact this

theorem mem_dates_applyUpserts (l : List DailyMetricRow) :
    ∀ (s : List DailyMetricRow) (r : DailyMetricRow), r ∈ l →
      r.date ∈ (applyUpserts s l).map DailyMetricRow.date := by
  induction l with
  | nil => intro s r h; cases h
  | cons x l ih =>
    intro s r hmem
    rw [applyUpserts, List.foldl_cons]
    cases hmem with
    | head =>
      have hbase := mem_dates_dbUpsert_self s x
      have := mem_dates_applyUpserts_mono l (dbUpsert s x) x.date hbase
      rw [applyUpserts] at this
      exact this
    | tail _ h =>
      have := ih (dbUpsert s x) r h
      rw [applyUpserts] at this
      exact this

theorem rowGet_applyUpserts (l : List DailyMetricRow) :
    ∀ (s : List DailyMetricRow) (k : ℤ),
      rowGet (applyUpserts s l) k =
        match lastRow l k with
        | some r => some r
        | none => rowGet s k := by
  induction l with
  | nil => intro s k; rfl
  | cons r l ih =>
    intro s k
    rw [applyUpserts, List.foldl_cons]
    have h1 := ih (dbUpsert s r) k
    rw [applyUpserts] at h1
    rw [h1, lastRow]
    cases lastRow l k with
    | some w => rfl
    | none =>
      simp only [rowGet_dbUpsert]
      by_cases hk : r.date = k
      · simp [hk]
      · simp [hk]

theorem nodup_dates_dbUpsert (m : List DailyMetricRow)
    (r : DailyMetricRow) (h : (m.map DailyMetricRow.date).Nodup) :
    ((dbUpsert m r).map DailyMetricRow.date).Nodup := by
  rw [dates_dbUpsert]
  by_cases hmem : r.date ∈ m.map DailyMetricRow.date
  · rw [if_pos hmem]; exact h
  · rw [if_neg hmem]
    rw [List.nodup_append]
    exact ⟨h, List.nodup_singleton _, by simpa using hmem⟩

theorem nodup_dates_applyUpserts (l : List DailyMetricRow) :
    ∀ (s : List DailyMetricRow), (s.map DailyMetricRow.date).Nodup →
      ((applyUpserts s l).map DailyMetricRow.date).Nodup := by
  induction l with
  | nil => intro s h; exact h
  | cons r l ih =>
    intro s h
    rw [applyUpserts, List.foldl_cons]
    exact ih (dbUpsert s r) (nodup_dates_dbUpsert s r h)

/-- Extensionality for tables with pairwise-distinct dates: equal date
sequences and equal lookups force equal tables. -/
theorem table_ext (m₁ : List DailyMetricRow) :
    ∀ (m₂ : List DailyMetricRow),
      m₁.map DailyMetricRow.date = m₂.map DailyMetricRow.date →
      (m₁.map DailyMetricRow.date).Nodup →
      (∀ k, rowGet m₁ k = rowGet m₂ k) → m₁ = m₂ := by
  induction m₁ with
  | nil =>
    intro m₂ hdates _ _
    cases m₂ with
    | nil => rfl
    | cons q l => cases hdates
  | cons q l ih =>
    intro m₂ hdates hnd hget
    cases m₂ with
    | nil => cases hdates
    | cons q' l' =>
      simp only [List.map_cons, List.cons.injEq] at hdates
      have hq : q = q' := by
        have h1 := hget q.date
        rw [rowGet, if_pos rfl, rowGet, if_pos hdates.1.symm] at h1
        exact Option.some.inj h1
      simp only [List.map_cons, List.nodup_cons] at hnd
      have htail : ∀ k, rowGet l k = rowGet l' k := by
        intro k
        by_cases hk : q.date = k
        · rw [rowGet_eq_none l k (hk ▸ hnd.1),
            rowGet_eq_none l' k (by rw [← hdates.2]; exact hk ▸ hnd.1)]
        · have h1 := hget k
          rw [rowGet, if_neg hk, rowGet, if_neg (hdates.1 ▸ hk)] at h1
          exact h1
      rw [hq, ih l' hdates.2 hnd.2 htail]

/-- Replaying the same write sequence over a table that already
contains every written date leaves the table unchanged: upsert-by-date
is idempotent. -/
theorem applyUpserts_idem (s : List DailyMetricRow)
    (l : List DailyMetricRow) (h : (s.map DailyMetricRow.date).Nodup) :
    applyUpserts (applyUpserts s l) l = applyUpserts s l := by
  have hsub : ∀ r ∈ l, r.date ∈ (applyUpserts s l).map DailyMetricRow.date :=
    fun r hr => mem_dates_applyUpserts l s r hr
  have hdates := dates_applyUpserts_of_subset l (applyUpserts s l) hsub
  apply table_ext _ _ hdates
  · rw [hdates]
    exact nodup_dates_applyUpserts l s h
  · intro k
    rw [rowGet_applyUpserts l (applyUpserts s l) k]
    cases hlast : lastRow l k with
    | some r => rw [rowGet_applyUpserts l s k, hlast]
    | none => rfl


end UpsertLemmas

section RangeLemmas

theorem enumRange_nodup (fromD toD : ℤ) : (enumRange fromD toD).Nodup := by
  have hinj : Function.Injective (fun i : ℕ => fromD + (i : ℤ)) := by
    intro a b hab
    simpa using hab
  exact (List.nodup_range _).map hinj

theorem enumRange_eq_nil (fromD toD : ℤ) (h : toD < fromD) :
    enumRange fromD toD = [] := by
  rw [enumRange]
  have : (toD + 1 - fromD).toNat = 0 := by omega
  rw [this]
  rfl

end RangeLemmas

section PredictionLemmas

theorem foldl_add_replicate (n : ℕ) :
    ∀ (c q : ℚ),
      List.foldl JSNum.add (JSNum.num c) (List.replicate n (JSNum.num q)) =
        JSNum.num (c + n * q) := by
  induction n with
  | zero => intro c q; simp [List.replicate]
  | succ m ih =>
    intro c q
    rw [List.replicate_succ, List.foldl_cons]
    have hadd : JSNum.add (JSNum.num c) (JSNum.num q) = JSNum.num (c + q) :=
      rfl
    rw [hadd, ih (c + q) q]
    congr 1
    push_cast
    ring

end PredictionLemmas

section ResolverPositivity

variable {α : Type} [LinearOrder α] [DecidableEq α]

/-- The resolver assigns every input date a strictly positive value
when all sparse prices and the fallback are strictly positive. -/
theorem fillMissingPrices_get_pos (dates : List α) (pm : α → Option ℚ)
    (fb : ℚ) (hpos : ∀ x q, pm x = some q → 0 < q) (hfb : 0 < fb)
    (d : α) (hd : d ∈ dates) :
    ∃ v, mapGet (fillMissingPrices dates pm fb) d = some v ∧ 0 < v := by
  rw [fillMissingPrices]
  cases hfk : findFirstKnown dates pm with
  | none =>
    simp only [initialLastKnown, hfk]
    rw [fillLoop_eq_foldl, mapGet_foldl_mapSet]
    have hkeys : d ∈ (fillValues pm none dates fb).map Prod.fst := by
      rw [fillValues_keys]
      exact hd
    obtain ⟨v, hv⟩ := lastVal_isSome _ _ hkeys
    refine ⟨v, by rw [hv], ?_⟩
    exact fillValues_pos pm none hpos (fun _ _ h => by cases h) dates fb hfb
      _ (lastVal_mem _ _ _ hv)
  | some pr =>
    obtain ⟨fd, fp⟩ := pr
    simp only [initialLastKnown, hfk]
    rw [fillLoop_eq_foldl, mapGet_foldl_mapSet]
    have hfp : 0 < fp := hpos fd fp (findFirstKnown_mem dates pm fd fp hfk).2
    have hlk0 : 0 < (if fp = 0 then fb else fp) := by
      by_cases h0 : fp = 0
      · rw [if_pos h0]; exact hfb
      · rw [if_neg h0]; exact hfp
    have hkeys : d ∈ (fillValues pm (some (fd, fp)) dates
        (if fp = 0 then fb else fp)).map Prod.fst := by
      rw [fillValues_keys]
      exact hd
    obtain ⟨v, hv⟩ := lastVal_isSome _ _ hkeys
    refine ⟨v, by rw [hv], ?_⟩
    exact fillValues_pos pm (some (fd, fp)) hpos
      (fun fd' fp' h => by cases h; exact hfp) dates _ hlk0
      _ (lastVal_mem _ _ _ hv)

end ResolverPositivity

/-- C1: for every ascending list of date strings, sparse price map and
fallback, the price resolver assigns each input date: its sparse entry
when present; the first known price when the date precedes the earliest
entry-bearing date; otherwise the most recently adopted known price
(forward fill); and, when no date has an entry, the fallback — the four
clauses being exactly `resolvePriceSpec`, the spec-side definition. -/
theorem claim1_price_resolver_assignment (dates : List String)
    (sparsePrices : String → Option ℚ) (fallback : ℚ)
    (hsort : dates.Sorted (· ≤ ·)) (d : String) (hd : d ∈ dates) :
    mapGet (fillMissingPrices dates sparsePrices fallback) d =
      some (resolvePriceSpec dates sparsePrices fallback d) :=
  fillMissingPrices_resolves dates sparsePrices fallback hsort d hd

/-- Witness for C1 at a concrete ascending three-date list with a
single sparse entry on the middle date, queried at the trailing date. -/
theorem claim1_witness :
    (["2024-01-01", "2024-01-02", "2024-01-03"] : List String).Sorted
        (· ≤ ·) ∧
      "2024-01-03" ∈
        (["2024-01-01", "2024-01-02", "2024-01-03"] : List String) ∧
      mapGet
          (fillMissingPrices ["2024-01-01", "2024-01-02", "2024-01-03"]
            (fun x => if x = "2024-01-02" then some (4 : ℚ) else none) 7)
          "2024-01-03" =
        some
          (resolvePriceSpec ["2024-01-01", "2024-01-02", "2024-01-03"]
            (fun x => if x = "2024-01-02" then some (4 : ℚ) else none) 7
            "2024-01-03") := by
  have h12 : ("2024-01-01" : String) ≤ "2024-01-02" :=
    String.le_iff_toList_le.mpr (by decide)
  have h13 : ("2024-01-01" : String) ≤ "2024-01-03" :=
    String.le_iff_toList_le.mpr (by decide)
  have h23 : ("2024-01-02" : String) ≤ "2024-01-03" :=
    String.le_iff_toList_le.mpr (by decide)
  have hsort : (["2024-01-01", "2024-01-02", "2024-01-03"] :
      List String).Sorted (· ≤ ·) := by
    rw [List.sorted_cons]
    refine ⟨?_, ?_⟩
    · intro b hb
      simp only [List.mem_cons, List.mem_singleton, List.not_mem_nil,
        or_false] at hb
      rcases hb with rfl | rfl
      · exact h12
      · exact h13
    · rw [List.sorted_cons]
      refine ⟨?_, List.sorted_singleton _⟩
      intro b hb
      rw [List.mem_singleton.mp hb]
      exact h23
  exact ⟨hsort, by decide,
    claim1_price_resolver_assignment _ _ _ hsort _ (by decide)⟩

/-- C2 counterexample: the claim quantifies over every input-date list
and every sparse map, but (i) a duplicated date yields one map entry,
not `len(dates)` entries, and (ii) a nonpositive sparse price is copied
to the output verbatim, so not every value is strictly positive even
with a positive fallback. -/
theorem claim2_counterexample :
    (fillMissingPrices ["a", "a"] (fun _ => (none : Option ℚ)) 1).length ≠
        (["a", "a"] : List String).length ∧
      ¬ (∀ pr ∈ fillMissingPrices ["a"]
            (fun x => if x = "a" then some (-1 : ℚ) else none) 1,
          0 < pr.2) := by
  constructor
  · decide
  · decide

/-- C2 (amended): for every list of pairwise-distinct input dates,
every sparse map all of whose prices are strictly positive, and every
strictly positive fallback, the resolver's output has exactly
`len(dates)` entries and every value in it is strictly positive. -/
theorem claim2_density_positivity (dates : List String)
    (sparsePrices : String → Option ℚ) (fallback : ℚ)
    (hnd : dates.Nodup)
    (hpos : ∀ d p, sparsePrices d = some p → 0 < p)
    (hfb : 0 < fallback) :
    (fillMissingPrices dates sparsePrices fallback).length = dates.length ∧
      ∀ pr ∈ fillMissingPrices dates sparsePrices fallback, 0 < pr.2 := by
  rw [fillMissingPrices_eq_fillValues dates sparsePrices fallback hnd]
  constructor
  · have hk := congrArg List.length
      (fillValues_keys sparsePrices (findFirstKnown dates sparsePrices)
        dates (initialLastKnown dates sparsePrices fallback))
    rw [List.length_map] at hk
    exact hk
  · exact fillValues_output_pos dates sparsePrices fallback hpos hfb

/-- Witness for C2 (amended) at two distinct dates, one sparse entry
with a positive price, and a positive fallback. -/
theorem claim2_witness :
    (fillMissingPrices ["a", "b"]
        (fun x => if x = "a" then some (2 : ℚ) else none) 1).length =
      (["a", "b"] : List String).length ∧
      ∀ pr ∈ fillMissingPrices ["a", "b"]
          (fun x => if x = "a" then some (2 : ℚ) else none) 1,
        0 < pr.2 :=
  claim2_density_positivity ["a", "b"]
    (fun x => if x = "a" then some (2 : ℚ) else none) 1
    (by decide)
    (by
      intro d p h
      dsimp only at h
      by_cases hd : d = "a"
      · rw [if_pos hd] at h
        cases h
        norm_num
      · rw [if_neg hd] at h
        cases h)
    (by norm_num)

/-- C3: over the inclusive range `[fromD, toD]` the sync builds and
upserts exactly one `DailyMetricRow` per calendar date (the record
dates are exactly the range, which is duplicate-free); a date absent
from the analytics map still yields a record with `messageCount = 0`
and `totalFeeUSD = 0` and a positive price; and every stored
`totalFeeUSD` is the product `messageCount × avgFee` of the analytics
count and average fee, each defaulting to `0` when absent. -/
theorem claim3_aggregation (fromD toD : ℤ) (lz : ℤ → Option LZDay)
    (hist : ℤ → Option ℚ) (currentPrice : ℚ)
    (hrange : fromD ≤ toD)
    (hhist : ∀ d p, hist d = some p → 0 < p) (hcp : 0 < currentPrice) :
    (cronDailySync fromD toD (Except.ok lz) hist currentPrice).upserts =
        syncRecords (enumRange fromD toD) lz hist currentPrice ∧
      (syncRecords (enumRange fromD toD) lz hist currentPrice).map
          DailyMetricRow.date = enumRange fromD toD ∧
      (enumRange fromD toD).Nodup ∧
      ∀ r ∈ syncRecords (enumRange fromD toD) lz hist currentPrice,
        r.totalFeeUSD =
            r.messageCount * jsOrQ ((lz r.date).map LZDay.avgFee) 0 ∧
          (lz r.date = none → r.messageCount = 0 ∧ r.totalFeeUSD = 0) ∧
          0 < r.zroPrice := by
  refine ⟨?_, ?_, enumRange_nodup fromD toD, ?_⟩
  · rw [cronDailySync, if_neg (not_lt.mpr hrange)]
  · rw [syncRecords, List.map_map]
    apply List.map_id''
    intro x
    rfl
  · intro r hr
    rw [syncRecords] at hr
    simp only [List.mem_map] at hr
    obtain ⟨d, hd, rfl⟩ := hr
    refine ⟨rfl, ?_, ?_⟩
    · intro habs
      simp [habs, jsOrQ]
    · obtain ⟨v, hv, hvpos⟩ := fillMissingPrices_get_pos
        (enumRange fromD toD) hist currentPrice hhist hcp d hd
      show 0 < jsOrQ (mapGet (fillMissingPrices (enumRange fromD toD)
        hist currentPrice) d) currentPrice
      rw [hv, jsOrQ]
      by_cases h0 : v = 0
      · rw [if_pos h0]; exact hcp
      · rw [if_neg h0]; exact hvpos

/-- Witness for C3 at the concrete two-day range `[0, 1]`, analytics
data only for day `0`, no historical prices, current price `1`. -/
theorem claim3_witness :
    (cronDailySync 0 1
          (Except.ok (fun d => if d = 0 then
            some { messageCount := 2, avgFee := 3, medianFee := 1 }
            else none))
          (fun _ => none) 1).upserts =
        syncRecords (enumRange 0 1)
          (fun d => if d = 0 then
            some { messageCount := 2, avgFee := 3, medianFee := 1 }
            else none)
          (fun _ => none) 1 ∧
      (syncRecords (enumRange 0 1)
          (fun d => if d = 0 then
            some { messageCount := 2, avgFee := 3, medianFee := 1 }
            else none)
          (fun _ => none) 1).map DailyMetricRow.date = enumRange 0 1 ∧
      (enumRange 0 1).Nodup ∧
      ∀ r ∈ syncRecords (enumRange 0 1)
          (fun d => if d = 0 then
            some { messageCount := 2, avgFee := 3, medianFee := 1 }
            else none)
          (fun _ => none) 1,
        r.totalFeeUSD =
            r.messageCount *
              jsOrQ (((fun d => if d = 0 then
                some { messageCount := 2, avgFee := 3, medianFee := 1 }
                else none : ℤ → Option LZDay) r.date).map LZDay.avgFee) 0 ∧
          ((fun d => if d = 0 then
            some { messageCount := 2, avgFee := 3, medianFee := 1 }
            else none : ℤ → Option LZDay) r.date = none →
            r.messageCount = 0 ∧ r.totalFeeUSD = 0) ∧
          0 < r.zroPrice :=
  claim3_aggregation 0 1
    (fun d => if d = 0 then
      some { messageCount := 2, avgFee := 3, medianFee := 1 } else none)
    (fun _ => none) 1
    (by norm_num)
    (by intro d p h; cases h)
    (by norm_num)

/-- C4: with identical inputs, the sync's record list is the same pure
value in both runs, and replaying its upsert sequence over the table a
second time leaves the table exactly as after the first run — the
upsert is insert-or-replace keyed by `date`, so there are no duplicate
rows and the field values are identical. -/
theorem claim4_idempotent_upsert (store : List DailyMetricRow)
    (fromD toD : ℤ) (lz : ℤ → Option LZDay) (hist : ℤ → Option ℚ)
    (currentPrice : ℚ)
    (hnd : (store.map DailyMetricRow.date).Nodup) :
    applyUpserts
        (applyUpserts store
          (adminSyncRange fromD toD (Except.ok lz) hist
            currentPrice).upserts)
        (adminSyncRange fromD toD (Except.ok lz) hist
          currentPrice).upserts =
      applyUpserts store
        (adminSyncRange fromD toD (Except.ok lz) hist
          currentPrice).upserts :=
  applyUpserts_idem store _ hnd

/-- Witness for C4: an empty starting table and the concrete range
`[0, 1]` with no analytics data. -/
theorem claim4_witness :
    applyUpserts
        (applyUpserts []
          (adminSyncRange 0 1 (Except.ok (fun _ => none))
            (fun _ => none) 1).upserts)
        (adminSyncRange 0 1 (Except.ok (fun _ => none))
          (fun _ => none) 1).upserts =
      applyUpserts []
        (adminSyncRange 0 1 (Except.ok (fun _ => none))
          (fun _ => none) 1).upserts :=
  claim4_idempotent_upsert [] 0 1 (fun _ => none) (fun _ => none) 1
    (by decide)

/-- C5 counterexample: the claim says every caller path with effective
`from > to` appends no `SyncStatusEntry`, but the admin route's
explicit-range path has no short-circuit: with `from = 5 > to = 3` it
still appends one success entry (with zero records synced). -/
theorem claim5_counterexample :
    (adminSyncRange 5 3 (Except.ok (fun _ => none))
          (fun _ => none) 1).statusEntries =
        [⟨3, "success", 0, none⟩] ∧
      (adminSyncRange 5 3 (Except.ok (fun _ => none))
          (fun _ => none) 1).statusEntries ≠ [] := by
  constructor
  · decide
  · decide

/-- C5 (amended): with effective `from > to`, the cron route returns
immediately with zero records, no upserts and no status entry; the
admin explicit-range route upserts nothing (its date enumeration is
empty) but still appends one success `SyncStatusEntry` with
`messagesSynced = 0` — the short-circuit exists only on the cron
path. -/
theorem claim5_noop_range (fromD toD : ℤ) (lz : ℤ → Option LZDay)
    (hist : ℤ → Option ℚ) (cp : ℚ) (h : toD < fromD) :
    cronDailySync fromD toD (Except.ok lz) hist cp =
        ⟨true, true, [], []⟩ ∧
      adminSyncRange fromD toD (Except.ok lz) hist cp =
        ⟨true, false, [], [⟨toD, "success", 0, none⟩]⟩ := by
  constructor
  · rw [cronDailySync, if_pos h]
  · rw [adminSyncRange]
    rw [enumRange_eq_nil fromD toD h]
    rfl

/-- Witness for C5 (amended) at the concrete inverted range
`from = 5 > to = 3`. -/
theorem claim5_witness :
    cronDailySync 5 3 (Except.ok (fun _ => none)) (fun _ => none) 1 =
        ⟨true, true, [], []⟩ ∧
      adminSyncRange 5 3 (Except.ok (fun _ => none)) (fun _ => none) 1 =
        ⟨true, false, [], [⟨3, "success", 0, none⟩]⟩ :=
  claim5_noop_range 5 3 (fun _ => none) (fun _ => none) 1 (by norm_num)

/-- C6 counterexample: the claim says every failing fetch yields a
non-empty `errorDetail`, but an `Error` thrown with an empty message
is stored as `errorMessage || null = null`: the error entry's detail
is `none`. -/
theorem claim6_counterexample :
    (cronDailySync 1 2 (Except.error (some "")) (fun _ => none)
          1).statusEntries =
        [⟨2, "error", 0, none⟩] ∧
      (cronDailySync 1 2 (Except.error (some "")) (fun _ => none)
          1).upserts = [] := by
  constructor
  · decide
  · decide

/-- C6 (amended): when the analytics fetch throws (and the range is
not short-circuited), the sync upserts no record, reports failure, and
appends exactly one error `SyncStatusEntry` whose detail is the thrown
error's message when that message is non-empty, `"Unknown error"` when
the thrown value is not an `Error`, and null (`none`) when the
error's message is the empty string. -/
theorem claim6_error_logging (fromD toD : ℤ) (e : Option String)
    (hist : ℤ → Option ℚ) (cp : ℚ) (h : fromD ≤ toD) :
    cronDailySync fromD toD (Except.error e) hist cp =
        ⟨false, false, [], [⟨toD, "error", 0, storedErrorDetail e⟩]⟩ ∧
      (∀ m, e = some m → m ≠ "" → storedErrorDetail e = some m) ∧
      (e = none → storedErrorDetail e = some "Unknown error") ∧
      (e = some "" → storedErrorDetail e = none) := by
  refine ⟨?_, ?_, ?_, ?_⟩
  · rw [cronDailySync, if_neg (not_lt.mpr h)]
  · intro m he hm
    subst he
    simp [storedErrorDetail, hm]
  · intro he
    subst he
    rfl
  · intro he
    subst he
    rfl

/-- Witness for C6 (amended) at the concrete range `[1, 2]` and a
thrown `Error` with message `"boom"`. -/
theorem claim6_witness :
    cronDailySync 1 2 (Except.error (some "boom")) (fun _ => none) 1 =
        ⟨false, false, [], [⟨2, "error", 0,
          storedErrorDetail (some "boom")⟩]⟩ ∧
      (∀ m, (some "boom" : Option String) = some m → m ≠ "" →
        storedErrorDetail (some "boom") = some m) ∧
      ((some "boom" : Option String) = none →
        storedErrorDetail (some "boom") = some "Unknown error") ∧
      ((some "boom" : Option String) = some "" →
        storedErrorDetail (some "boom") = none) :=
  claim6_error_logging 1 2 (some "boom") (fun _ => none) 1 (by norm_num)

/-- C7 counterexample: the claim says the per-day burn is
`avgDailyTotalFee / avgPrice` with a fallback to `currentPrice` only
for an empty window, but for a nonempty window whose mean price is `0`
(falsy) the code falls back to `currentPrice` as well: here the mean
price is `0`, the claimed quotient is `+∞`, yet the code assigns
`4 / 2 = 2` from the current price. -/
theorem claim7_counterexample :
    (predictFutureBurn
          [{ date := "d", messageCount := JSNum.num 1,
             avgGasPaid := JSNum.num 0, medianGasPaid := JSNum.num 0,
             totalFeeUSD := JSNum.num 4, zroPrice := JSNum.num 0 }] 1
          (JSNum.num 2)).dailyBurn = [JSNum.num 2] ∧
      calculateAverageZROPrice
          [{ date := "d", messageCount := JSNum.num 1,
             avgGasPaid := JSNum.num 0, medianGasPaid := JSNum.num 0,
             totalFeeUSD := JSNum.num 4, zroPrice := JSNum.num 0 }] =
        JSNum.num 0 ∧
      JSNum.div
          (calculateAverageDailyTotalFee
            [{ date := "d", messageCount := JSNum.num 1,
               avgGasPaid := JSNum.num 0, medianGasPaid := JSNum.num 0,
               totalFeeUSD := JSNum.num 4, zroPrice := JSNum.num 0 }])
          (calculateAverageZROPrice
            [{ date := "d", messageCount := JSNum.num 1,
               avgGasPaid := JSNum.num 0, medianGasPaid := JSNum.num 0,
               totalFeeUSD := JSNum.num 4, zroPrice := JSNum.num 0 }]) =
        JSNum.posInf ∧
      JSNum.posInf ≠ JSNum.num 2 := by
  refine ⟨?_, ?_, ?_, by decide⟩
  · norm_num [predictFutureBurn, calculateAverageDailyTotalFee,
      calculateAverageZROPrice, calculateDailyBurn, JSNum.add, JSNum.div,
      JSNum.falsy, JSNum.mul, List.replicate]
  · norm_num [calculateAverageZROPrice, JSNum.add, JSNum.div]
  · norm_num [calculateAverageDailyTotalFee, calculateAverageZROPrice,
      JSNum.add, JSNum.div]

/-- C7 (amended): with `avgDailyTotalFee` a finite number `a` and the
effective price — the window's mean price when truthy, the current
price otherwise (so the fallback also covers a zero mean, not only the
empty window) — a finite nonzero `p`, the forecast assigns every one of
the `daysAhead` future days the identical burn `a / p`, and returns
`totalBurn = daysAhead × (a / p)`, `totalUSDValue = a × daysAhead`, and
the effective price as `avgZROPrice`. -/
theorem claim7_forecast_burn (ms : List DailyMetrics) (daysAhead : ℕ)
    (cp : JSNum) (a p : ℚ)
    (ha : calculateAverageDailyTotalFee ms = JSNum.num a)
    (hp : (if (calculateAverageZROPrice ms).falsy then cp
           else calculateAverageZROPrice ms) = JSNum.num p)
    (hpne : p ≠ 0) :
    predictFutureBurn ms daysAhead cp =
      { dailyBurn := List.replicate daysAhead (JSNum.num (a / p)),
        totalBurn := JSNum.num (daysAhead * (a / p)),
        totalUSDValue := JSNum.num (a * daysAhead),
        avgZROPrice := JSNum.num p } := by
  have hburn : calculateDailyBurn (JSNum.num a) (JSNum.num p) =
      JSNum.num (a / p) := by
    simp only [calculateDailyBurn, JSNum.div]
    rw [if_neg hpne]
  simp only [predictFutureBurn, ha, hp, hburn]
  have hsum := foldl_add_replicate daysAhead 0 (a / p)
  rw [zero_add] at hsum
  rw [hsum]
  have hmul : JSNum.mul (JSNum.num a) (JSNum.num (daysAhead : ℚ)) =
      JSNum.num (a * daysAhead) := rfl
  rw [hmul]

/-- Witness for C7 (amended): one-record window with fee `6` and price
`3`, two days ahead, current price `5`; the mean price `3` is truthy,
so the effective price is `3` and each day burns `2`. -/
theorem claim7_witness :
    predictFutureBurn
        [{ date := "d", messageCount := JSNum.num 1,
           avgGasPaid := JSNum.num 0, medianGasPaid := JSNum.num 0,
           totalFeeUSD := JSNum.num 6, zroPrice := JSNum.num 3 }] 2
        (JSNum.num 5) =
      { dailyBurn := List.replicate 2 (JSNum.num ((6 : ℚ) / 3)),
        totalBurn := JSNum.num ((2 : ℕ) * ((6 : ℚ) / 3)),
        totalUSDValue := JSNum.num ((6 : ℚ) * (2 : ℕ)),
        avgZROPrice := JSNum.num 3 } :=
  claim7_forecast_burn
    [{ date := "d", messageCount := JSNum.num 1,
       avgGasPaid := JSNum.num 0, medianGasPaid := JSNum.num 0,
       totalFeeUSD := JSNum.num 6, zroPrice := JSNum.num 3 }] 2
    (JSNum.num 5) 6 3
    (by norm_num [calculateAverageDailyTotalFee, JSNum.add, JSNum.div])
    (by norm_num [calculateAverageZROPrice, JSNum.add, JSNum.div,
      JSNum.falsy])
    (by norm_num)

/-- C8 counterexample: at `price = 0` with `totalFeeUSD = 1` the code
returns `Infinity`, not the defined-zero result the claim asserts. -/
theorem claim8_counterexample :
    calculateDailyBurn (JSNum.num 1) (JSNum.num 0) = JSNum.posInf ∧
      JSNum.posInf ≠ JSNum.num 0 := by
  constructor
  · decide
  · decide

/-- C8 (amended): `dailyBurn` is exactly `totalFeeUSD / price` for a
nonzero finite price, and there is no zero-price guard: at `price = 0`
the IEEE division result is returned — `+∞` for a positive fee, `-∞`
for a negative fee, `NaN` for a zero fee — never a defined zero. -/
theorem claim8_daily_burn (t p : ℚ) :
    (p ≠ 0 → calculateDailyBurn (JSNum.num t) (JSNum.num p) =
        JSNum.num (t / p)) ∧
      (0 < t → calculateDailyBurn (JSNum.num t) (JSNum.num 0) =
        JSNum.posInf) ∧
      (t < 0 → calculateDailyBurn (JSNum.num t) (JSNum.num 0) =
        JSNum.negInf) ∧
      calculateDailyBurn (JSNum.num 0) (JSNum.num 0) = JSNum.nan := by
  refine ⟨?_, ?_, ?_, rfl⟩
  · intro hp
    rw [calculateDailyBurn, JSNum.div, if_neg hp]
  · intro ht
    rw [calculateDailyBurn, JSNum.div, if_pos rfl, if_neg (ne_of_gt ht),
      if_pos ht]
  · intro ht
    rw [calculateDailyBurn, JSNum.div, if_pos rfl, if_neg (ne_of_lt ht),
      if_neg (not_lt.mpr (le_of_lt ht))]

/-- Witness for C8 (amended) at fee `1` with prices `2` and `0`. -/
theorem claim8_witness :
    calculateDailyBurn (JSNum.num 1) (JSNum.num 2) =
        JSNum.num ((1 : ℚ) / 2) ∧
      calculateDailyBurn (JSNum.num 1) (JSNum.num 0) = JSNum.posInf :=
  ⟨(claim8_daily_burn 1 2).1 (by norm_num),
    (claim8_daily_burn 1 0).2.1 (by norm_num)⟩

/-- C9 (code bug): two same-day samples, `(timestamp 100, price 50)`
then `(timestamp 60, price 7)`. The latest intra-day timestamp is
`100`, so the claim (and the code's own comment, coingecko-api line 70)
requires keeping price `50`; but the guard compares the new timestamp
`60` with the stored PRICE `50` (`timestamp > (priceMap.get(dateStr)
|| 0)`), so `60 > 50` overwrites and the map ends up holding `7`. -/
theorem claim9_latest_timestamp_bug :
    buildPriceMap (fun _ => "d") [(100, 50), (60, 7)] = [("d", 7)] ∧
      (7 : ℚ) ≠ 50 := by
  constructor
  · decide
  · decide

/-- C10: with a finite message count `c` and finite total fee `t`,
`calculateDuneStats` returns the guarded average —
`totalProtocolFee / messageCount` when `c > 0`, else `0` — which is a
finite number in both branches (never NaN or infinite); in particular
`c = 0` yields average `0`, and a missing/falsy median is coerced to
`0`. -/
theorem claim10_dune_stats_guard (m : DuneDailyMetrics) (c t : ℚ)
    (hc : m.messageCount = JSNum.num c)
    (ht : m.totalProtocolFee = JSNum.num t) :
    (calculateDuneStats m).1 =
        (if 0 < c then JSNum.num (t / c) else JSNum.num 0) ∧
      (∃ q, (calculateDuneStats m).1 = JSNum.num q) ∧
      (c = 0 → (calculateDuneStats m).1 = JSNum.num 0) ∧
      (m.medianProtocolFee.falsy = true →
        (calculateDuneStats m).2 = JSNum.num 0) := by
  have havg : (calculateDuneStats m).1 =
      (if 0 < c then JSNum.num (t / c) else JSNum.num 0) := by
    simp only [calculateDuneStats, hc, ht, JSNum.gt]
    by_cases h0 : 0 < c
    · rw [if_pos (by simpa using h0), if_pos h0]
      simp only [JSNum.div]
      rw [if_neg (ne_of_gt h0)]
    · rw [if_neg (by simpa using h0), if_neg h0]
  refine ⟨havg, ?_, ?_, ?_⟩
  · rw [havg]
    by_cases h0 : 0 < c
    · exact ⟨t / c, by rw [if_pos h0]⟩
    · exact ⟨0, by rw [if_neg h0]⟩
  · intro h0
    rw [havg, if_neg (by rw [h0]; exact lt_irrefl 0)]
  · intro hf
    simp [calculateDuneStats, hf]

/-- Witness for C10 at a metrics value with zero messages, total fee
`5`, and a zero (falsy) median. -/
theorem claim10_witness :
    (calculateDuneStats
          { date := "d", messageCount := JSNum.num 0,
            totalExecutorFees := JSNum.num 2,
            totalDvnFees := JSNum.num 3,
            totalProtocolFee := JSNum.num 5,
            medianProtocolFee := JSNum.num 0 }).1 =
        (if (0 : ℚ) < 0 then JSNum.num ((5 : ℚ) / 0) else JSNum.num 0) ∧
      (∃ q, (calculateDuneStats
          { date := "d", messageCount := JSNum.num 0,
            totalExecutorFees := JSNum.num 2,
            totalDvnFees := JSNum.num 3,
            totalProtocolFee := JSNum.num 5,
            medianProtocolFee := JSNum.num 0 }).1 = JSNum.num q) ∧
      ((0 : ℚ) = 0 → (calculateDuneStats
          { date := "d", messageCount := JSNum.num 0,
            totalExecutorFees := JSNum.num 2,
            totalDvnFees := JSNum.num 3,
            totalProtocolFee := JSNum.num 5,
            medianProtocolFee := JSNum.num 0 }).1 = JSNum.num 0) ∧
      ((JSNum.num 0).falsy = true →
        (calculateDuneStats
          { date := "d", messageCount := JSNum.num 0,
            totalExecutorFees := JSNum.num 2,
            totalDvnFees := JSNum.num 3,
            totalProtocolFee := JSNum.num 5,
            medianProtocolFee := JSNum.num 0 }).2 = JSNum.num 0) :=
  claim10_dune_stats_guard
    { date := "d", messageCount := JSNum.num 0,
      totalExecutorFees := JSNum.num 2, totalDvnFees := JSNum.num 3,
      totalProtocolFee := JSNum.num 5, medianProtocolFee := JSNum.num 0 }
    0 5 rfl rfl

end FeeSwitchTracker
